import Mathlib

/-!
Shallow embedding of the denial-constraints-to-SQL transpiler.

The data model follows `src/types.ts`, the validator follows
`src/parser.ts` (`DCParser.validate`), and the SQL generator follows
`src/transpiler.ts` (`DCTranspiler`).  TypeScript strings are Lean
`String`s; JavaScript `Set` insertion-order deduplication is `dedupFirst`;
`Array.prototype.join` is `String.intercalate`; the out-of-bounds array
access `dc.predicates[0]` is threaded through `Option`.

The parser (`DCParser.parse`) matches the input against the Ohm.js grammar
stored in `src/grammar.ohm`, a file that is not part of the sources here;
those pieces are modelled from the spec and carry a
`Modelled from the spec:` doc comment.
-/

/-- The six comparison operators of the DC language (`ComparisonOperator`
in `src/types.ts`, there a union of string literals). -/
inductive ComparisonOperator where
  | eq
  | neq
  | le
  | ge
  | lt
  | gt
deriving DecidableEq

/-- The source text of an operator, i.e. the string value the TS union
type `ComparisonOperator` stores ("==", "<>", "<=", ">=", "<", ">"). -/
def ComparisonOperator.text : ComparisonOperator → String
  | .eq => "=="
  | .neq => "<>"
  | .le => "<="
  | .ge => ">="
  | .lt => "<"
  | .gt => ">"

/-- `TupleReference` from `src/types.ts`. -/
structure TupleReference where
  tupleId : String
  tableName : String
  columnName : String
deriving DecidableEq

/-- `Predicate` from `src/types.ts`. -/
structure Predicate where
  left : TupleReference
  operator : ComparisonOperator
  right : TupleReference
deriving DecidableEq

/-- `DenialConstraint` from `src/types.ts`. -/
structure DenialConstraint where
  predicates : List Predicate
deriving DecidableEq

/-- `SQLQuery` from `src/types.ts`. -/
structure SQLQuery where
  selectColumns : List String
  fromClause : String
  whereConditions : List String
deriving DecidableEq

/-- `TranspilerOptions` from `src/types.ts`, with the defaults applied by
the `DCTranspiler` constructor (`selectAllColumns:false`,
`formatOutput:true`, `includeComments:false`). -/
structure TranspilerOptions where
  selectAllColumns : Bool := false
  formatOutput : Bool := true
  includeComments : Bool := false
deriving DecidableEq

/-- Inserting a list of elements one by one into a JavaScript `Set` whose
current contents (in any order) are `seen`: an element is kept the first
time it is met and skipped afterwards. -/
def dedupFirstAux {α : Type} [DecidableEq α] : List α → List α → List α
  | [], _ => []
  | x :: xs, seen =>
    if x ∈ seen then dedupFirstAux xs seen
    else x :: dedupFirstAux xs (x :: seen)

/-- First-occurrence deduplication: the order in which a JavaScript `Set`
stores elements as `DCParser.validate`, `DCTranspiler.extractTupleAliases`
and `DCTranspiler.buildSelectColumns` insert them. -/
def dedupFirst {α : Type} [DecidableEq α] (l : List α) : List α :=
  dedupFirstAux l []

/-- The error raised by `validate` (`src/parser.ts` throws `Error`; the
spec's error taxonomy names these `WellFormednessError`). -/
inductive ValidationError where
  | wellFormedness (msg : String)
deriving DecidableEq

/-- Every table name mentioned by the predicates, left reference then
right reference, in predicate order (the insertion order of the
`tableNames` set in `DCParser.validate`). -/
def tableNameOccurrences (dc : DenialConstraint) : List String :=
  dc.predicates.flatMap fun p => [p.left.tableName, p.right.tableName]

/-- `DCParser.validate` from `src/parser.ts`: throw if the predicate list
is empty, throw if the set of referenced table names has size ≠ 1,
otherwise return `true`. -/
def validate (dc : DenialConstraint) : Except ValidationError Bool :=
  if dc.predicates.length = 0 then
    .error (.wellFormedness "Denial constraint must have at least one predicate")
  else if (dedupFirst (tableNameOccurrences dc)).length ≠ 1 then
    .error (.wellFormedness "All predicates must reference the same table")
  else
    .ok true

/-- `DCTranspiler.extractTableName`: `dc.predicates[0].left.tableName`.
The `[0]` access is modelled in `Option` because it is out of bounds when
the predicate list is empty. -/
def extractTableName (dc : DenialConstraint) : Option String :=
  dc.predicates.head?.map fun p => p.left.tableName

/-- Every tuple id mentioned by the predicates, left then right, in
predicate order (insertion order of the `aliases` set). -/
def tupleIdOccurrences (dc : DenialConstraint) : List String :=
  dc.predicates.flatMap fun p => [p.left.tupleId, p.right.tupleId]

/-- The JavaScript string comparison `a < b` used by the default
`Array.prototype.sort()` comparator: lexicographic, code unit by code
unit, with a proper prefix ordered first. -/
def strLtB : List Char → List Char → Bool
  | [], [] => false
  | [], _ :: _ => true
  | _ :: _, [] => false
  | a :: as, b :: bs =>
    if a < b then true
    else if b < a then false
    else strLtB as bs

/-- The ascending order `Array.prototype.sort()` arranges strings in:
`a` precedes `b` when `b < a` is false. -/
def stringSortLe (a b : String) : Prop :=
  strLtB b.data a.data = false

instance : DecidableRel stringSortLe :=
  fun a b => instDecidableEqBool (strLtB b.data a.data) false

/-- `DCTranspiler.extractTupleAliases`: collect the distinct tuple ids
into a `Set` and sort them with `Array.prototype.sort()`, i.e. by the
lexicographic string order. -/
def extractTupleAliases (dc : DenialConstraint) : List String :=
  List.insertionSort stringSortLe (dedupFirst (tupleIdOccurrences dc))

/-- Every column name mentioned by the predicates, left then right, in
predicate order (insertion order of the `columns` set in
`DCTranspiler.buildSelectColumns`). -/
def columnOccurrences (dc : DenialConstraint) : List String :=
  dc.predicates.flatMap fun p => [p.left.columnName, p.right.columnName]

/-- The `columns` set of `DCTranspiler.buildSelectColumns`: the distinct
column names in order of first appearance. -/
def collectColumns (dc : DenialConstraint) : List String :=
  dedupFirst (columnOccurrences dc)

/-- `DCTranspiler.buildSelectColumns`: nested `forEach`, outer loop over
the aliases, inner loop over the collected columns. -/
def buildSelectColumns (dc : DenialConstraint) (tupleAliases : List String) : List String :=
  tupleAliases.flatMap fun tAlias => (collectColumns dc).map fun col => tAlias ++ "." ++ col

/-- `cleaned.endsWith('.csv')` in `DCTranspiler.cleanTableName`. -/
def endsWithCsv (s : String) : Bool :=
  ".csv".data.isSuffixOf s.data

/-- `cleaned.slice(0, -4)` in `DCTranspiler.cleanTableName`. -/
def dropCsvSuffix (s : String) : String :=
  ⟨s.data.take (s.data.length - 4)⟩

/-- The regular-expression test `/[.-]/.test(cleaned)`. -/
def hasDotOrDash (s : String) : Bool :=
  s.data.any fun c => c == '.' || c == '-'

/-- `DCTranspiler.cleanTableName`: strip a trailing `.csv`, then wrap in
double quotes when the cleaned name still contains `.` or `-`. -/
def cleanTableName (tableName : String) : String :=
  let cleaned := if endsWithCsv tableName then dropCsvSuffix tableName else tableName
  if hasDotOrDash cleaned then "\"" ++ cleaned ++ "\"" else cleaned

/-- `DCTranspiler.buildFromClause`. -/
def buildFromClause (tableName : String) (tupleAliases : List String) : String :=
  let cleaned := cleanTableName tableName
  String.intercalate ", " (tupleAliases.map fun tAlias => cleaned ++ " " ++ tAlias)

/-- `DCTranspiler.convertOperator`. -/
def convertOperator : ComparisonOperator → String
  | .eq => "="
  | .neq => "!="
  | .le => "<="
  | .ge => ">="
  | .lt => "<"
  | .gt => ">"

/-- `DCTranspiler.predicateToSQL`. -/
def predicateToSQL (pred : Predicate) : String :=
  pred.left.tupleId ++ "." ++ pred.left.columnName ++ " " ++ convertOperator pred.operator
    ++ " " ++ pred.right.tupleId ++ "." ++ pred.right.columnName

/-- `DCTranspiler.buildWhereConditions`. -/
def buildWhereConditions (dc : DenialConstraint) : List String :=
  dc.predicates.map predicateToSQL

/-- One predicate of the `-- Generated from:` comment in
`DCTranspiler.formatSQL`: the template
`tupleId.column operator tupleId.column` (table names omitted). -/
def predicateComment (p : Predicate) : String :=
  p.left.tupleId ++ "." ++ p.left.columnName ++ " " ++ p.operator.text
    ++ " " ++ p.right.tupleId ++ "." ++ p.right.columnName

/-- `DCTranspiler.formatSQL`.  The `"Â¬("` literal reproduces the source
file byte for byte: the negation symbol in the comment template of
`src/transpiler.ts` is mis-encoded as the two characters U+00C2 U+00AC
rather than the single character U+00AC. -/
def formatSQL (options : TranspilerOptions) (sqlQuery : SQLQuery) (dc : DenialConstraint) : String :=
  let commentLines : List String :=
    if options.includeComments then
      ["-- Denial Constraint Violation Query",
       "-- Generated from: Â¬(" ++
         String.intercalate " ^ " (dc.predicates.map predicateComment) ++ ")",
       ""]
    else []
  let sqlLines : List String :=
    if options.formatOutput then
      ["SELECT",
       "  " ++ String.intercalate ",\n  " sqlQuery.selectColumns,
       "FROM",
       "  " ++ sqlQuery.fromClause,
       "WHERE",
       "  " ++ String.intercalate "\n  AND " sqlQuery.whereConditions,
       ";"]
    else
      ["SELECT " ++ String.intercalate ", " sqlQuery.selectColumns
        ++ " FROM " ++ sqlQuery.fromClause
        ++ " WHERE " ++ String.intercalate " AND " sqlQuery.whereConditions ++ ";"]
  String.intercalate "\n" (commentLines ++ sqlLines)

/-- `DCTranspiler.buildSQLQuery`; the `Option` threads the possible
out-of-bounds access inside `extractTableName`. -/
def buildSQLQuery (dc : DenialConstraint) (options : TranspilerOptions) : Option SQLQuery :=
  (extractTableName dc).map fun tableName =>
    let tupleAliases := extractTupleAliases dc
    { selectColumns :=
        if options.selectAllColumns then tupleAliases.map fun tAlias => tAlias ++ ".*"
        else buildSelectColumns dc tupleAliases
      fromClause := buildFromClause tableName tupleAliases
      whereConditions := buildWhereConditions dc }

/-- `DCTranspiler.transpile`. -/
def transpile (dc : DenialConstraint) (options : TranspilerOptions) : Option String :=
  (buildSQLQuery dc options).map fun sqlQuery => formatSQL options sqlQuery dc

/-- Modelled from the spec: the `qualifiedName` character class of the
grammar in the missing `src/grammar.ohm`
(`qualifiedName = (alnum | "_" | "." | "-")+`). -/
def isQualChar (c : Char) : Bool :=
  c.isAlpha || c.isDigit || c == '_' || c == '.' || c == '-'

/-- Whitespace skipped between tokens (Ohm syntactic rules skip spaces). -/
def isSpaceChar (c : Char) : Bool :=
  c == ' ' || c == '\t' || c == '\n' || c == '\r'

/-- Skip insignificant whitespace between terminals. -/
def skipSpaces (l : List Char) : List Char :=
  l.dropWhile isSpaceChar

/-- Modelled from the spec: the anchoring rule for `TupleRef` — the last
dot-delimited segment is the column name, everything before the last dot
is the table name.  Fails when there is no dot or either part is empty. -/
def splitLastDot (s : List Char) : Option (List Char × List Char) :=
  let revCol := s.reverse.takeWhile fun c => !(c == '.')
  match s.reverse.dropWhile (fun c => !(c == '.')) with
  | [] => none
  | _ :: tableRev =>
    if revCol.isEmpty || tableRev.isEmpty then none
    else some (tableRev.reverse, revCol.reverse)

/-- Modelled from the spec: parsing one `TupleRef`
(`identifier "." tableName "." columnName`, identifier `"t" digit+`) with
the first/last-segment anchoring rule applied to the maximal run of
`qualifiedName` characters after the tuple identifier.  The produced
record mirrors the `TupleRef` semantic action of `DCParser`. -/
def parseTupleRef (l : List Char) : Option (TupleReference × List Char) :=
  match skipSpaces l with
  | 't' :: afterT =>
    let digits := afterT.takeWhile Char.isDigit
    let afterDigits := afterT.dropWhile Char.isDigit
    if digits.isEmpty then none
    else
      match skipSpaces afterDigits with
      | '.' :: afterDot =>
        let run := (skipSpaces afterDot).takeWhile isQualChar
        let rest := (skipSpaces afterDot).dropWhile isQualChar
        match splitLastDot run with
        | some (tbl, col) =>
          some ({ tupleId := ⟨'t' :: digits⟩, tableName := ⟨tbl⟩, columnName := ⟨col⟩ }, rest)
        | none => none
      | _ => none
  | _ => none

/-- Modelled from the spec: the six comparison operators, longest match
first (ordered choice `"==" | "<>" | "<=" | ">=" | "<" | ">"`). -/
def parseComparisonOperator (l : List Char) : Option (ComparisonOperator × List Char) :=
  match skipSpaces l with
  | '=' :: '=' :: rest => some (.eq, rest)
  | '<' :: '>' :: rest => some (.neq, rest)
  | '<' :: '=' :: rest => some (.le, rest)
  | '>' :: '=' :: rest => some (.ge, rest)
  | '<' :: rest => some (.lt, rest)
  | '>' :: rest => some (.gt, rest)
  | _ => none

/-- Modelled from the spec: `Predicate = TupleRef operator TupleRef`,
built as in the `Predicate` semantic action of `DCParser`. -/
def parsePredicate (l : List Char) : Option (Predicate × List Char) :=
  match parseTupleRef l with
  | none => none
  | some (leftRef, l1) =>
    match parseComparisonOperator l1 with
    | none => none
    | some (op, l2) =>
      match parseTupleRef l2 with
      | none => none
      | some (rightRef, l3) =>
        some ({ left := leftRef, operator := op, right := rightRef }, l3)

/-- Modelled from the spec: the `("^" Predicate)*` tail of
`PredicateList`, with fuel bounding the recursion (each iteration
consumes at least the `"^"`, so `length + 1` fuel always suffices). -/
def parseMorePredicates : Nat → List Char → Option (List Predicate × List Char)
  | 0, _ => none
  | fuel + 1, l =>
    match skipSpaces l with
    | '^' :: afterCaret =>
      match parsePredicate afterCaret with
      | none => none
      | some (p, l1) =>
        match parseMorePredicates fuel l1 with
        | none => none
        | some (ps, l2) => some (p :: ps, l2)
    | other => some ([], other)

/-- Modelled from the spec: `DCParser.parse` against the grammar
`DenialConstraint = "¬" "(" PredicateList ")"` from the missing
`src/grammar.ohm`; the whole input must be consumed, and a grammar
mismatch yields the parse error (`src/parser.ts` throws
`Parse error: ...`). -/
def parseDC (input : String) : Except String DenialConstraint :=
  match skipSpaces input.data with
  | '¬' :: afterNeg =>
    match skipSpaces afterNeg with
    | '(' :: afterParen =>
      match parsePredicate afterParen with
      | none => .error "Parse error"
      | some (firstPred, l1) =>
        match parseMorePredicates (l1.length + 1) l1 with
        | none => .error "Parse error"
        | some (restPreds, l2) =>
          match skipSpaces l2 with
          | ')' :: afterClose =>
            if (skipSpaces afterClose).isEmpty then
              .ok { predicates := firstPred :: restPreds }
            else .error "Parse error"
          | _ => .error "Parse error"
    | _ => .error "Parse error"
  | _ => .error "Parse error"

/-- The AST of `¬(t0.airport.Country==t1.airport.Country^t0.airport.Timezone<>t1.airport.Timezone)`. -/
def dcAirport : DenialConstraint :=
  { predicates :=
      [{ left := { tupleId := "t0", tableName := "airport", columnName := "Country" },
         operator := .eq,
         right := { tupleId := "t1", tableName := "airport", columnName := "Country" } },
       { left := { tupleId := "t0", tableName := "airport", columnName := "Timezone" },
         operator := .neq,
         right := { tupleId := "t1", tableName := "airport", columnName := "Timezone" } }] }

/-- The AST of `¬(t0.A.X==t1.B.X)`: two distinct table names. -/
def dcTwoTables : DenialConstraint :=
  { predicates :=
      [{ left := { tupleId := "t0", tableName := "A", columnName := "X" },
         operator := .eq,
         right := { tupleId := "t1", tableName := "B", columnName := "X" } }] }

/-- A constraint whose alias set is {t0, t1, t10, t2}. -/
def dcLex : DenialConstraint :=
  { predicates :=
      [{ left := { tupleId := "t0", tableName := "T", columnName := "A" },
         operator := .eq,
         right := { tupleId := "t1", tableName := "T", columnName := "A" } },
       { left := { tupleId := "t10", tableName := "T", columnName := "A" },
         operator := .eq,
         right := { tupleId := "t2", tableName := "T", columnName := "A" } }] }

/-- The AST of `¬(t0.hours.EmpID==t1.hours.EmpID)`. -/
def dcHours : DenialConstraint :=
  { predicates :=
      [{ left := { tupleId := "t0", tableName := "hours", columnName := "EmpID" },
         operator := .eq,
         right := { tupleId := "t1", tableName := "hours", columnName := "EmpID" } }] }

theorem mem_dedupFirstAux {α : Type} [DecidableEq α] (a : α) :
    ∀ (l seen : List α), a ∈ dedupFirstAux l seen ↔ a ∈ l ∧ a ∉ seen := by
  intro l
  induction l with
  | nil => intro seen; simp [dedupFirstAux]
  | cons x xs ih =>
    intro seen
    by_cases hx : x ∈ seen
    · simp only [dedupFirstAux, if_pos hx, ih, List.mem_cons]
      constructor
      · rintro ⟨ha, hs⟩; exact ⟨Or.inr ha, hs⟩
      · rintro ⟨ha | ha, hs⟩
        · exact absurd (ha ▸ hx) hs
        · exact ⟨ha, hs⟩
    · simp only [dedupFirstAux, if_neg hx, List.mem_cons, ih]
      constructor
      · rintro (rfl | ⟨ha, hs⟩)
        · exact ⟨Or.inl rfl, hx⟩
        · exact ⟨Or.inr ha, fun hmem => hs (Or.inr hmem)⟩
      · rintro ⟨rfl | ha, hs⟩
        · exact Or.inl rfl
        · by_cases hax : a = x
          · exact Or.inl hax
          · exact Or.inr ⟨ha, by simp [hax, hs]⟩

theorem mem_dedupFirst {α : Type} [DecidableEq α] {a : α} {l : List α} :
    a ∈ dedupFirst l ↔ a ∈ l := by
  simp [dedupFirst, mem_dedupFirstAux]

theorem nodup_dedupFirstAux {α : Type} [DecidableEq α] :
    ∀ (l seen : List α), (dedupFirstAux l seen).Nodup := by
  intro l
  induction l with
  | nil => intro seen; simp [dedupFirstAux]
  | cons x xs ih =>
    intro seen
    by_cases hx : x ∈ seen
    · simpa [dedupFirstAux, if_pos hx] using ih seen
    · simp only [dedupFirstAux, if_neg hx, List.nodup_cons]
      refine ⟨fun hmem => ?_, ih (x :: seen)⟩
      have := (mem_dedupFirstAux x xs (x :: seen)).mp hmem
      exact this.2 (List.mem_cons_self x seen)

theorem nodup_dedupFirst {α : Type} [DecidableEq α] (l : List α) :
    (dedupFirst l).Nodup :=
  nodup_dedupFirstAux l []

theorem pairwise_indexOf_dedupFirstAux {α : Type} [DecidableEq α] :
    ∀ (l seen : List α),
      (dedupFirstAux l seen).Pairwise fun a b => l.indexOf a ≤ l.indexOf b := by
  intro l
  induction l with
  | nil => intro seen; simp [dedupFirstAux]
  | cons x xs ih =>
    intro seen
    by_cases hx : x ∈ seen
    · simp only [dedupFirstAux, if_pos hx]
      refine (ih seen).imp_of_mem ?_
      intro a b ha hb hab
      have ha2 := (mem_dedupFirstAux a xs seen).mp ha
      have hb2 := (mem_dedupFirstAux b xs seen).mp hb
      have hax : x ≠ a := fun h => ha2.2 (h ▸ hx)
      have hbx : x ≠ b := fun h => hb2.2 (h ▸ hx)
      rw [List.indexOf_cons_ne _ hax, List.indexOf_cons_ne _ hbx]
      exact Nat.succ_le_succ hab
    · simp only [dedupFirstAux, if_neg hx]
      rw [List.pairwise_cons]
      constructor
      · intro b _
        rw [List.indexOf_cons_self]
        exact Nat.zero_le _
      · refine (ih (x :: seen)).imp_of_mem ?_
        intro a b ha hb hab
        have ha2 := (mem_dedupFirstAux a xs (x :: seen)).mp ha
        have hb2 := (mem_dedupFirstAux b xs (x :: seen)).mp hb
        have hax : x ≠ a := fun h => ha2.2 (h ▸ List.mem_cons_self x seen)
        have hbx : x ≠ b := fun h => hb2.2 (h ▸ List.mem_cons_self x seen)
        rw [List.indexOf_cons_ne _ hax, List.indexOf_cons_ne _ hbx]
        exact Nat.succ_le_succ hab

theorem pairwise_indexOf_dedupFirst {α : Type} [DecidableEq α] (l : List α) :
    (dedupFirst l).Pairwise fun a b => l.indexOf a ≤ l.indexOf b :=
  pairwise_indexOf_dedupFirstAux l []

theorem length_dedupFirst_eq_length_dedup {α : Type} [DecidableEq α] (l : List α) :
    (dedupFirst l).length = l.dedup.length := by
  refine List.Perm.length_eq ?_
  refine (List.perm_ext_iff_of_nodup (nodup_dedupFirst l) (List.nodup_dedup l)).mpr ?_
  intro a
  rw [mem_dedupFirst, List.mem_dedup]

theorem strLtB_iff_lex : ∀ (as bs : List Char), strLtB as bs = true ↔ List.Lex (· < ·) as bs := by
  intro as
  induction as with
  | nil =>
    intro bs
    cases bs with
    | nil =>
      simp only [strLtB, Bool.false_eq_true, false_iff]
      exact List.Lex.not_nil_right _ _
    | cons b bs =>
      simp only [strLtB, true_iff]
      exact List.Lex.nil
  | cons a as ih =>
    intro bs
    cases bs with
    | nil =>
      simp only [strLtB, Bool.false_eq_true, false_iff]
      exact List.Lex.not_nil_right _ _
    | cons b bs =>
      by_cases hab : a < b
      · simp only [strLtB, if_pos hab, true_iff]
        exact List.Lex.rel hab
      · by_cases hba : b < a
        · simp only [strLtB, if_neg hab, if_pos hba, Bool.false_eq_true, false_iff]
          intro h
          cases h with
          | cons h2 => exact absurd hba (lt_irrefl a)
          | rel h2 => exact absurd h2 hab
        · have heq : a = b := le_antisymm (le_of_not_lt hba) (le_of_not_lt hab)
          subst heq
          simp only [strLtB, if_neg hab, if_neg hba, ih bs]
          constructor
          · exact List.Lex.cons
          · intro h
            cases h with
            | cons h2 => exact h2
            | rel h2 => exact absurd h2 (lt_irrefl a)

theorem stringSortLe_iff (a b : String) : stringSortLe a b ↔ a.data ≤ b.data := by
  unfold stringSortLe
  rw [← Bool.not_eq_true, strLtB_iff_lex]
  constructor
  · intro h
    exact not_lt.mp h
  · intro h
    exact not_lt.mpr h

instance : IsTotal String stringSortLe :=
  ⟨fun a b => by
    rw [stringSortLe_iff, stringSortLe_iff]
    exact le_total _ _⟩

instance : IsTrans String stringSortLe :=
  ⟨fun a b c hab hbc => by
    rw [stringSortLe_iff] at hab hbc ⊢
    exact le_trans hab hbc⟩

theorem string_mk_data (s : String) : (⟨s.data⟩ : String) = s := by
  cases s
  rfl

theorem endsWithCsv_append (s : String) : endsWithCsv (s ++ ".csv") = true := by
  unfold endsWithCsv
  rw [String.data_append]
  simp only [List.isSuffixOf_iff_suffix]
  exact List.suffix_append _ _

theorem dropCsvSuffix_append (s : String) : dropCsvSuffix (s ++ ".csv") = s := by
  unfold dropCsvSuffix
  rw [String.data_append]
  have hlen : (s.data ++ ".csv".data).length - 4 = s.data.length := by
    simp [List.length_append]
  rw [hlen, List.take_left' rfl, string_mk_data]

theorem takeWhile_append_run {α : Type} (p : α → Bool) :
    ∀ (xs ys : List α), (∀ a ∈ xs, p a = true) → (∀ b l2, ys = b :: l2 → p b = false) →
      (xs ++ ys).takeWhile p = xs := by
  intro xs
  induction xs with
  | nil =>
    intro ys _ hy
    cases ys with
    | nil => rfl
    | cons b l2 =>
      simp only [List.nil_append]
      exact List.takeWhile_cons_of_neg (by simp [hy b l2 rfl])
  | cons x xs ih =>
    intro ys hx hy
    simp only [List.cons_append]
    rw [List.takeWhile_cons_of_pos (by simp [hx x (List.mem_cons_self _ _)])]
    rw [ih ys (fun a ha => hx a (List.mem_cons_of_mem _ ha)) hy]

theorem dropWhile_append_run {α : Type} (p : α → Bool) :
    ∀ (xs ys : List α), (∀ a ∈ xs, p a = true) → (∀ b l2, ys = b :: l2 → p b = false) →
      (xs ++ ys).dropWhile p = ys := by
  intro xs
  induction xs with
  | nil =>
    intro ys _ hy
    cases ys with
    | nil => rfl
    | cons b l2 =>
      simp only [List.nil_append]
      exact List.dropWhile_cons_of_neg (by simp [hy b l2 rfl])
  | cons x xs ih =>
    intro ys hx hy
    simp only [List.cons_append]
    rw [List.dropWhile_cons_of_pos (by simp [hx x (List.mem_cons_self _ _)])]
    exact ih ys (fun a ha => hx a (List.mem_cons_of_mem _ ha)) hy

theorem skipSpaces_cons_of_not_space {c : Char} {l : List Char} (h : isSpaceChar c = false) :
    skipSpaces (c :: l) = c :: l := by
  unfold skipSpaces
  exact List.dropWhile_cons_of_neg (by simp [h])

theorem not_space_of_qual {c : Char} (h : isQualChar c = true) : isSpaceChar c = false := by
  cases hx : isSpaceChar c with
  | false => rfl
  | true =>
    exfalso
    unfold isSpaceChar at hx
    simp only [Bool.or_eq_true, beq_iff_eq] at hx
    rcases hx with ((rfl | rfl) | rfl) | rfl <;> exact absurd h (by decide)

theorem splitLastDot_eq {mid lastSeg : List Char} (hmid : mid ≠ []) (hlast : lastSeg ≠ [])
    (hnodot : ∀ c ∈ lastSeg, (c == '.') = false) :
    splitLastDot (mid ++ '.' :: lastSeg) = some (mid, lastSeg) := by
  unfold splitLastDot
  have hrev : (mid ++ '.' :: lastSeg).reverse = lastSeg.reverse ++ '.' :: mid.reverse := by
    rw [List.reverse_append, List.reverse_cons, List.append_assoc]
    simp
  rw [hrev]
  have htw : (lastSeg.reverse ++ '.' :: mid.reverse).takeWhile (fun c => !(c == '.'))
      = lastSeg.reverse :=
    takeWhile_append_run _ _ _
      (fun a ha => by simp [hnodot a (List.mem_reverse.mp ha)])
      (fun b l2 hb => by cases hb; simp)
  have hdw : (lastSeg.reverse ++ '.' :: mid.reverse).dropWhile (fun c => !(c == '.'))
      = '.' :: mid.reverse :=
    dropWhile_append_run _ _ _
      (fun a ha => by simp [hnodot a (List.mem_reverse.mp ha)])
      (fun b l2 hb => by cases hb; simp)
  rw [htw, hdw]
  have h1 : lastSeg.reverse.isEmpty = false := by
    rw [List.isEmpty_eq_false, ne_eq, List.reverse_eq_nil_iff]
    exact hlast
  have h2 : mid.reverse.isEmpty = false := by
    rw [List.isEmpty_eq_false, ne_eq, List.reverse_eq_nil_iff]
    exact hmid
  simp [h1, h2]
/-- Claim C2: for every syntactically valid tuple reference whose middle part
contains embedded dots, parsing yields the first dot-delimited segment as
the tuple id, the last segment as the column name, and the whole middle
(dots included) as the table name. -/
theorem parseTupleRef_anchoring (digits mid lastSeg rest : List Char)
    (hd : digits ≠ []) (hdall : ∀ c ∈ digits, c.isDigit = true)
    (hmid : mid ≠ []) (hmidall : ∀ c ∈ mid, isQualChar c = true)
    (hdotmid : '.' ∈ mid)
    (hlast : lastSeg ≠ []) (hlastall : ∀ c ∈ lastSeg, isQualChar c = true)
    (hlastnodot : ∀ c ∈ lastSeg, (c == '.') = false)
    (hrest : ∀ b l2, rest = b :: l2 → isQualChar b = false) :
    parseTupleRef ('t' :: (digits ++ '.' :: (mid ++ '.' :: (lastSeg ++ rest))))
      = some ({ tupleId := ⟨'t' :: digits⟩, tableName := ⟨mid⟩, columnName := ⟨lastSeg⟩ }, rest) := by
  have h3 : digits.isEmpty = false := by
    rw [List.isEmpty_eq_false]
    exact hd
  have h1 : (digits ++ '.' :: (mid ++ '.' :: (lastSeg ++ rest))).takeWhile Char.isDigit = digits :=
    takeWhile_append_run _ _ _ hdall (fun b l2 hb => by cases hb; decide)
  have h2 : (digits ++ '.' :: (mid ++ '.' :: (lastSeg ++ rest))).dropWhile Char.isDigit
      = '.' :: (mid ++ '.' :: (lastSeg ++ rest)) :=
    dropWhile_append_run _ _ _ hdall (fun b l2 hb => by cases hb; decide)
  have hqall : ∀ a ∈ mid ++ '.' :: lastSeg, isQualChar a = true := by
    intro a ha
    rcases List.mem_append.mp ha with h | h
    · exact hmidall a h
    · rcases List.mem_cons.mp h with rfl | h
      · decide
      · exact hlastall a h
  have hshape : mid ++ '.' :: (lastSeg ++ rest) = (mid ++ '.' :: lastSeg) ++ rest := by
    rw [List.append_assoc, List.cons_append]
  have h4 : (mid ++ '.' :: (lastSeg ++ rest)).takeWhile isQualChar = mid ++ '.' :: lastSeg := by
    rw [hshape]
    exact takeWhile_append_run _ _ _ hqall hrest
  have h5 : (mid ++ '.' :: (lastSeg ++ rest)).dropWhile isQualChar = rest := by
    rw [hshape]
    exact dropWhile_append_run _ _ _ hqall hrest
  have h6 : skipSpaces (mid ++ '.' :: (lastSeg ++ rest)) = mid ++ '.' :: (lastSeg ++ rest) := by
    cases mid with
    | nil => exact absurd rfl hmid
    | cons m ms =>
      rw [List.cons_append]
      exact skipSpaces_cons_of_not_space (not_space_of_qual (hmidall m (List.mem_cons_self _ _)))
  have h7 := splitLastDot_eq hmid hlast hlastnodot
  simp only [parseTupleRef, skipSpaces_cons_of_not_space (show isSpaceChar 't' = false by decide),
    h1, h2, h3, skipSpaces_cons_of_not_space (show isSpaceChar '.' = false by decide),
    h6, h4, h5, h7, Bool.false_eq_true, if_false]
theorem mem_flatMap_pair {α β : Type} (f g : α → β) (l : List α) (b : β) :
    b ∈ l.flatMap (fun x => [f x, g x]) ↔ ∃ x ∈ l, f x = b ∨ g x = b := by
  rw [List.mem_flatMap]
  constructor
  · rintro ⟨x, hx, hmem⟩
    rcases List.mem_cons.mp hmem with rfl | hmem2
    · exact ⟨x, hx, Or.inl rfl⟩
    · rcases List.mem_cons.mp hmem2 with rfl | hmem3
      · exact ⟨x, hx, Or.inr rfl⟩
      · cases hmem3
  · rintro ⟨x, hx, rfl | rfl⟩
    · exact ⟨x, hx, List.mem_cons_self _ _⟩
    · exact ⟨x, hx, List.mem_cons_of_mem _ (List.mem_cons_self _ _)⟩

/-- Claim C1: parse, validate and compact-transpile the airport constraint. -/
theorem spec_c1_end_to_end_compact :
    parseDC "¬(t0.airport.Country==t1.airport.Country^t0.airport.Timezone<>t1.airport.Timezone)"
      = .ok dcAirport
    ∧ validate dcAirport = .ok true
    ∧ transpile dcAirport { formatOutput := false }
      = some "SELECT t0.Country, t0.Timezone, t1.Country, t1.Timezone FROM airport t0, airport t1 WHERE t0.Country = t1.Country AND t0.Timezone != t1.Timezone;" :=
  ⟨rfl, rfl, rfl⟩

/-- Claim C4: parse ignores the single-table rule. -/
theorem spec_c4_parse_then_validate :
    parseDC "¬(t0.A.X==t1.B.X)" = .ok dcTwoTables
    ∧ dcTwoTables.predicates.length = 1
    ∧ validate dcTwoTables
      = .error (.wellFormedness "All predicates must reference the same table") :=
  ⟨rfl, rfl, rfl⟩

/-- Claim C9: the generated comment uses the mis-encoded two-character sequence. -/
theorem spec_c9_comment_encoding :
    transpile dcHours { formatOutput := false, includeComments := true }
      = some ("-- Denial Constraint Violation Query\n-- Generated from: Â¬(t0.EmpID == t1.EmpID)\n\nSELECT t0.EmpID, t1.EmpID FROM hours t0, hours t1 WHERE t0.EmpID = t1.EmpID;")
    ∧ ("-- Generated from: Â¬(t0.EmpID == t1.EmpID)" : String)
      ≠ "-- Generated from: ¬(t0.EmpID == t1.EmpID)" :=
  ⟨rfl, by decide⟩

/-- Claim C10: transpile succeeds exactly on non-empty predicate lists. -/
theorem spec_c10_oob_precondition (dc : DenialConstraint) (options : TranspilerOptions) :
    (extractTableName dc = none ↔ dc.predicates = [])
    ∧ ((transpile dc options).isSome = true ↔ dc.predicates ≠ []) := by
  constructor
  · rw [extractTableName]
    constructor
    · intro h
      rcases hh : dc.predicates.head? with _ | p
      · exact List.head?_eq_none_iff.mp hh
      · rw [hh] at h
        cases h
    · intro h
      rw [h]
      rfl
  · rw [transpile, buildSQLQuery, extractTableName, Option.isSome_map', Option.isSome_map',
      Option.isSome_map']
    exact List.head?_isSome

/-- Claim C3: validate fails with a well-formedness error exactly on an empty
predicate list or a non-singleton table-name set, and succeeds with
`true` otherwise. -/
theorem spec_c3_validate_wellformedness (dc : DenialConstraint) :
    ((∃ msg, validate dc = .error (.wellFormedness msg)) ↔
      dc.predicates = [] ∨ (tableNameOccurrences dc).dedup.length ≠ 1)
    ∧ (¬(dc.predicates = [] ∨ (tableNameOccurrences dc).dedup.length ≠ 1) →
        validate dc = .ok true) := by
  have hlen := length_dedupFirst_eq_length_dedup (tableNameOccurrences dc)
  constructor
  · constructor
    · rintro ⟨msg, hmsg⟩
      by_contra hcon
      push_neg at hcon
      obtain ⟨hne, hsize⟩ := hcon
      unfold validate at hmsg
      rw [if_neg (by simp [List.length_eq_zero, hne]),
        if_neg (by simp [hlen, hsize])] at hmsg
      exact Except.noConfusion hmsg
    · intro h
      unfold validate
      rcases h with h | h
      · rw [if_pos (by simp [h])]
        exact ⟨_, rfl⟩
      · by_cases hne : dc.predicates.length = 0
        · rw [if_pos hne]
          exact ⟨_, rfl⟩
        · rw [if_neg hne, if_pos (by rw [hlen]; exact h)]
          exact ⟨_, rfl⟩
  · intro h
    push_neg at h
    obtain ⟨hne, hsize⟩ := h
    unfold validate
    rw [if_neg (by simp [List.length_eq_zero, hne]), if_neg (by simp [hlen, hsize])]

/-- Claim C3 witness: the airport constraint is well formed. -/
theorem spec_c3_witness :
    ¬(dcAirport.predicates = [] ∨ (tableNameOccurrences dcAirport).dedup.length ≠ 1)
    ∧ validate dcAirport = .ok true :=
  ⟨by decide, (spec_c3_validate_wellformedness dcAirport).2 (by decide)⟩
/-- Claim C5: the aliases of the FROM/SELECT clauses are the distinct tuple ids,
lexicographically sorted. -/
theorem spec_c5_alias_ordering (dc : DenialConstraint) (a : String) :
    List.Sorted (fun x y : String => x.data ≤ y.data) (extractTupleAliases dc)
    ∧ (extractTupleAliases dc).Nodup
    ∧ (a ∈ extractTupleAliases dc ↔
        ∃ p ∈ dc.predicates, p.left.tupleId = a ∨ p.right.tupleId = a)
    ∧ extractTupleAliases dcLex = ["t0", "t1", "t10", "t2"] := by
  refine ⟨?_, ?_, ?_, by decide⟩
  · have hs := List.sorted_insertionSort stringSortLe (dedupFirst (tupleIdOccurrences dc))
    exact List.Pairwise.imp (fun {x y} h => (stringSortLe_iff x y).mp h) hs
  · exact (List.perm_insertionSort _ _).nodup_iff.mpr (nodup_dedupFirst _)
  · rw [extractTupleAliases,
      (List.perm_insertionSort stringSortLe (dedupFirst (tupleIdOccurrences dc))).mem_iff,
      mem_dedupFirst, tupleIdOccurrences, mem_flatMap_pair]

/-- Claim C6: one WHERE condition per predicate, in order, with the operator map. -/
theorem spec_c6_where_conditions (dc : DenialConstraint) (i : Nat) :
    (buildWhereConditions dc).length = dc.predicates.length
    ∧ (buildWhereConditions dc)[i]? = (dc.predicates[i]?).map (fun p =>
        p.left.tupleId ++ "." ++ p.left.columnName ++ " " ++ convertOperator p.operator
          ++ " " ++ p.right.tupleId ++ "." ++ p.right.columnName)
    ∧ convertOperator .eq = "=" ∧ convertOperator .neq = "!="
    ∧ convertOperator .lt = ComparisonOperator.text .lt
    ∧ convertOperator .le = ComparisonOperator.text .le
    ∧ convertOperator .gt = ComparisonOperator.text .gt
    ∧ convertOperator .ge = ComparisonOperator.text .ge := by
  refine ⟨by simp [buildWhereConditions], ?_, rfl, rfl, rfl, rfl, rfl, rfl⟩
  rw [buildWhereConditions, List.getElem?_map]
  rfl

/-- Claim C7: FROM-clause table-name cleaning. -/
theorem spec_c7_table_name_cleaning :
    (∀ s : String, cleanTableName (s ++ ".csv")
        = if hasDotOrDash s then "\"" ++ s ++ "\"" else s)
    ∧ (∀ s : String, endsWithCsv s = false →
        cleanTableName s = if hasDotOrDash s then "\"" ++ s ++ "\"" else s)
    ∧ buildFromClause "hours" ["t0", "t1"] = "hours t0, hours t1" := by
  refine ⟨?_, ?_, rfl⟩
  · intro s
    unfold cleanTableName
    rw [endsWithCsv_append, dropCsvSuffix_append]
    simp
  · intro s h
    unfold cleanTableName
    rw [h]
    simp
/-- Claim C7 witness: the table `hours` needs no stripping and no quoting. -/
theorem spec_c7_witness :
    endsWithCsv "hours" = false
    ∧ cleanTableName "hours"
      = (if hasDotOrDash "hours" then "\"" ++ "hours" ++ "\"" else "hours") :=
  ⟨by decide, spec_c7_table_name_cleaning.2.1 "hours" (by decide)⟩

/-- Claim C8: the SELECT list is alias-major over the distinct columns in
first-appearance order. -/
theorem spec_c8_select_columns (dc : DenialConstraint) (options : TranspilerOptions)
    (h : options.selectAllColumns = false) :
    (∀ q, buildSQLQuery dc options = some q →
        q.selectColumns = (extractTupleAliases dc).flatMap fun tAlias =>
          (collectColumns dc).map fun col => tAlias ++ "." ++ col)
    ∧ (collectColumns dc).Nodup
    ∧ (∀ c, c ∈ collectColumns dc ↔
        ∃ p ∈ dc.predicates, p.left.columnName = c ∨ p.right.columnName = c)
    ∧ (collectColumns dc).Pairwise fun a b =>
        (columnOccurrences dc).indexOf a ≤ (columnOccurrences dc).indexOf b := by
  refine ⟨?_, nodup_dedupFirst _, ?_, pairwise_indexOf_dedupFirst _⟩
  · intro q hq
    unfold buildSQLQuery at hq
    cases hext : extractTableName dc with
    | none =>
      rw [hext] at hq
      cases hq
    | some t =>
      rw [hext] at hq
      simp only [Option.map_some'] at hq
      cases hq
      simp [h, buildSelectColumns]
  · intro c
    rw [collectColumns, mem_dedupFirst, columnOccurrences, mem_flatMap_pair]

/-- Claim C8 witness: options with `selectAllColumns` off, applied to the
airport constraint. -/
theorem spec_c8_witness :
    ({ selectAllColumns := false } : TranspilerOptions).selectAllColumns = false
    ∧ (collectColumns dcAirport).Nodup :=
  ⟨rfl, (spec_c8_select_columns dcAirport { selectAllColumns := false } rfl).2.1⟩
/-- Claim C2 witness: the reference `t1.WDC_planets.csv.Mass` parses with table
name `WDC_planets.csv` and column name `Mass`. -/
theorem spec_c2_witness :
    ('.' ∈ "WDC_planets.csv".data)
    ∧ parseTupleRef "t1.WDC_planets.csv.Mass".data
      = some ({ tupleId := "t1", tableName := "WDC_planets.csv", columnName := "Mass" }, []) :=
  ⟨by decide, parseTupleRef_anchoring "1".data "WDC_planets.csv".data "Mass".data []
    (by decide) (by decide) (by decide) (by decide) (by decide) (by decide) (by decide)
    (by decide) nofun⟩
